import Mathlib

/-!
Verification development for the fftpp FFT library (FFTComplex.h and the two
FFTReal variants). The engine is embedded shallowly:

* buffers are total functions out of the index type; every butterfly reads its
  operands before writing them, and distinct loop iterations touch disjoint
  index pairs, so the imperative in-place passes of the source are reproduced
  exactly by functional updates;
* the floating-point sample path is idealized as exact real arithmetic, with
  complex samples as pairs of reals (`Cx ℝ`) mirroring `std::complex<T>`;
* the fixed-point sample path is embedded over `ℤ` with explicit two's
  complement narrowing;
* the two loops of the constructor (candidate search and factor recording) are
  given a fuel argument that strictly dominates their iteration count, keeping
  the definitions structurally recursive and kernel-reducible.
-/

namespace Fftpp

/-- One record of the factor list: `struct Factor { size_t radix, length; }`. -/
structure Factor where
  radix : ℕ
  length : ℕ
deriving DecidableEq, Repr

/-- A complex sample: `std::complex<T>` as a pair of scalars. -/
structure Cx (R : Type) where
  re : R
  im : R
deriving DecidableEq, Repr

namespace Cx

variable {R : Type} [CommRing R]

/-- Componentwise sum, as `std::complex` addition. -/
instance : Add (Cx R) := ⟨fun a b => ⟨a.re + b.re, a.im + b.im⟩⟩

/-- Componentwise difference, as `std::complex` subtraction. -/
instance : Sub (Cx R) := ⟨fun a b => ⟨a.re - b.re, a.im - b.im⟩⟩

@[simp] theorem add_re (a b : Cx R) : (a + b).re = a.re + b.re := rfl
@[simp] theorem add_im (a b : Cx R) : (a + b).im = a.im + b.im := rfl
@[simp] theorem sub_re (a b : Cx R) : (a - b).re = a.re - b.re := rfl
@[simp] theorem sub_im (a b : Cx R) : (a - b).im = a.im - b.im := rfl

/-- `cmul`: complex product built from scalar products, as in the source
(`smul` is the plain product in the floating-point path). -/
def cmul (a b : Cx R) : Cx R :=
  ⟨a.re * b.re - a.im * b.im, a.re * b.im + a.im * b.re⟩

/-- `std::conj`. -/
def conj (a : Cx R) : Cx R := ⟨a.re, -a.im⟩

@[simp] theorem cmul_re (a b : Cx R) : (cmul a b).re = a.re * b.re - a.im * b.im := rfl
@[simp] theorem cmul_im (a b : Cx R) : (cmul a b).im = a.re * b.im + a.im * b.re := rfl
@[simp] theorem conj_re (a : Cx R) : (conj a).re = a.re := rfl
@[simp] theorem conj_im (a : Cx R) : (conj a).im = -a.im := rfl

end Cx

/-- `cexp`: write `(s_cos phase, s_sin phase)`; floating-point path, so the
scalar cosine/sine are the exact real ones. -/
noncomputable def cexpR (phase : ℝ) : Cx ℝ := ⟨Real.cos phase, Real.sin phase⟩

/-- `halve` in the floating-point path: multiplication by one half. -/
noncomputable def halveR (x : ℝ) : ℝ := x * (1 / 2)

/-! ## Constructor: twiddle tables (`FFTComplex::FFTComplex`, lines 158-171) -/

/-- Forward twiddle table: entry `i` is `cexp (factor * i)` with
`factor = -2π/size`. -/
noncomputable def twTableF (N : ℕ) (i : ℕ) : Cx ℝ :=
  cexpR (-2 * Real.pi / N * i)

/-- Inverse twiddle table: entry `i` is `cexp (factor * i * -1)`. -/
noncomputable def twTableI (N : ℕ) (i : ℕ) : Cx ℝ :=
  cexpR (-2 * Real.pi / N * i * -1)

/-! ## Constructor: greedy factorization (`FFTComplex::FFTComplex`, lines 173-198)

The source advances a candidate `p` through `4, 2, 3, 5, 7, …` while it fails
to divide the remaining length, jumping to the remaining length itself once the
candidate exceeds `root = √size`; after the jump the `while` condition
`fftSize % p` is `0`, so the jump is modelled by returning the remaining length
directly. The fuel `root + 4` dominates the number of candidate advances. -/

/-- One advance of the candidate: `case 4: p = 2; case 2: p = 3; default: p += 2`. -/
def advanceP (p : ℕ) : ℕ :=
  if p = 4 then 2 else if p = 2 then 3 else p + 2

/-- The inner `while (fftSize % p)` loop: find the radix for remaining length `f`
starting from candidate `p`. -/
def findRadix : ℕ → ℕ → ℕ → ℕ → ℕ
  | 0, _, f, _ => f
  | fuel + 1, root, f, p =>
    if f % p = 0 then p
    else
      let p2 := advanceP p
      if p2 > root then f else findRadix fuel root f p2

/-- The outer `do … while (fftSize > 1)` loop recording `(radix, length)` pairs.
Each recorded radix is at least 2 while the remaining length is at least 2, so
the remaining length at least halves per record and any fuel above the initial
length suffices. -/
def buildFactors : ℕ → ℕ → ℕ → ℕ → List Factor
  | 0, _, _, _ => []
  | fuel + 1, root, f, p =>
    let r := findRadix (root + 4) root f p
    let f2 := f / r
    { radix := r, length := f2 } :: (if f2 > 1 then buildFactors fuel root f2 r else [])

/-- The factor list built by the constructor for size `N`:
`root = √N` (computed once, from the original size), initial candidate 4. -/
def computeFactors (N : ℕ) : List Factor :=
  buildFactors (N + 1) (Nat.sqrt N) N 4

/-- Well-formedness the constructor guarantees: the head factor splits the
current length as `radix * length`, and the tail decomposes `length` (the tail
is ignored by `perform` when `length = 1`). -/
def FactorsOK : List Factor → ℕ → Prop
  | [], _ => False
  | f :: fs, L => f.radix * f.length = L ∧ (f.length = 1 ∨ FactorsOK fs f.length)

instance : ∀ fs L, Decidable (FactorsOK fs L)
  | [], _ => inferInstanceAs (Decidable False)
  | _ :: fs, _ =>
    have := fun L => instDecidableFactorsOK fs L
    inferInstanceAs (Decidable (_ ∧ (_ ∨ _)))

/-! ## Butterfly kernels (floating-point path)

Each kernel of the source iterates `i` over `[0, length)`, reading all the
operands of iteration `i` before writing them, and distinct iterations access
disjoint locations; the functional form below gives the value each location
holds after the pass. -/

/-- `FFTComplex::butterfly2` (lines 256-276): for `i < length`,
`t = cmul(out[i+length], W[i*stride])`, then `out[i+length] = out[i] - t` and
`out[i] += t`. -/
def butterfly2 {R : Type} [CommRing R] (output : ℕ → Cx R) (stride length : ℕ)
    (tw : ℕ → Cx R) : ℕ → Cx R :=
  fun j =>
    if j < length then
      output j + Cx.cmul (output (j + length)) (tw (j * stride))
    else if j < 2 * length then
      output (j - length) - Cx.cmul (output j) (tw ((j - length) * stride))
    else output j

/-- `FFTComplex::butterfly4` (lines 278-338): the three twiddle cursors advance
by `stride`, `2*stride`, `3*stride` per iteration, so iteration `i` reads
`W[i*stride]`, `W[i*stride*2]`, `W[i*stride*3]`. The `inverse` flag swaps the
sign pattern of the `s4` components. -/
def butterfly4 {R : Type} [CommRing R] (output : ℕ → Cx R) (stride length : ℕ)
    (tw : ℕ → Cx R) (inverse : Bool) : ℕ → Cx R :=
  fun j =>
    if j < 4 * length then
      let i := j % length
      let s0 := Cx.cmul (output (i + length)) (tw (i * stride))
      let s1 := Cx.cmul (output (i + 2 * length)) (tw (i * stride * 2))
      let s2 := Cx.cmul (output (i + 3 * length)) (tw (i * stride * 3))
      let s3 := s0 + s2
      let s4 := s0 - s2
      let s5 := output i - s1
      if j < length then output i + s1 + s3
      else if j < 2 * length then
        if inverse then ⟨s5.re - s4.im, s5.im + s4.re⟩
        else ⟨s5.re + s4.im, s5.im - s4.re⟩
      else if j < 3 * length then output i + s1 - s3
      else
        if inverse then ⟨s5.re + s4.im, s5.im - s4.re⟩
        else ⟨s5.re - s4.im, s5.im + s4.re⟩
    else output j

/-- The inner accumulation of `FFTComplex::butterflyGeneric` (lines 367-381):
starting from `scratch[0]`, after `n` steps the pair holds the running twiddle
index (incremented by `inc = stride * k` and reduced by one conditional
subtraction of `N`) and the running sum of `cmul (scratch q) (W[twIndex])` for
`q = 1, …, n`. -/
def genAux {R : Type} [CommRing R] (scratch tw : ℕ → Cx R) (N inc : ℕ) :
    ℕ → ℕ × Cx R
  | 0 => (0, scratch 0)
  | n + 1 =>
    let p := genAux scratch tw N inc n
    let t0 := p.1 + inc
    let t := if t0 ≥ N then t0 - N else t0
    (t, p.2 + Cx.cmul (scratch (n + 1)) (tw t))

/-- `FFTComplex::butterflyGeneric` (lines 340-384): for output position
`k = u + q1*length`, gather `scratch[q] = out[u + q*length]` and accumulate the
twiddled sum with running index increment `stride * k`. -/
def butterflyGeneric {R : Type} [CommRing R] (output : ℕ → Cx R)
    (stride radix length N : ℕ) (tw : ℕ → Cx R) : ℕ → Cx R :=
  fun k =>
    if k < radix * length then
      let u := k % length
      let scratch : ℕ → Cx R := fun q => output (u + q * length)
      (genAux scratch tw N (stride * k) (radix - 1)).2
    else output k

/-- `FFTComplex::perform` (lines 213-254). The base case (`length = 1`) copies
`radix` strided input samples; otherwise each of the `radix` recursive calls
fills one length-`length` block of the output from the input shifted by
`q * stride * inStride`; then the radix dispatches the butterfly. -/
def performRec {R : Type} [CommRing R] (N : ℕ) (twF twI : ℕ → Cx R) (inv : Bool) :
    List Factor → ℕ → ℕ → (ℕ → Cx R) → ℕ → Cx R
  | [], _, _, input => input
  | f :: fs, stride, inStride, input =>
    let r := f.radix
    let m := f.length
    let pre : ℕ → Cx R :=
      if m = 1 then fun j => input (j * (stride * inStride))
      else fun j =>
        performRec N twF twI inv fs (stride * r) inStride
          (fun t => input (j / m * (stride * inStride) + t)) (j % m)
    let tw := if inv then twI else twF
    match r with
    | 2 => butterfly2 pre stride m tw
    | 4 => butterfly4 pre stride m tw inv
    | _ => butterflyGeneric pre stride r m N tw

/-! ## Public complex transforms (`forward` / `inverse`, lines 201-211)

`forward` reinterprets the interleaved time data as complex pairs; `inverse`
writes complex results back as interleaved reals. Both call `perform` with
`stride = 1`, `inStride = 1` and the full factor list. -/

noncomputable def FFTComplexForward (N : ℕ) (time : ℕ → ℝ) : ℕ → Cx ℝ :=
  performRec N (twTableF N) (twTableI N) false (computeFactors N) 1 1
    (fun n => ⟨time (2 * n), time (2 * n + 1)⟩)

noncomputable def FFTComplexInversePerform (N : ℕ) (freq : ℕ → Cx ℝ) : ℕ → Cx ℝ :=
  performRec N (twTableF N) (twTableI N) true (computeFactors N) 1 1 freq

noncomputable def FFTComplexInverse (N : ℕ) (freq : ℕ → Cx ℝ) : ℕ → ℝ :=
  fun j =>
    if j % 2 = 0 then (FFTComplexInversePerform N freq (j / 2)).re
    else (FFTComplexInversePerform N freq (j / 2)).im

/-! ## Fixed-point scalar helpers (`sround` / `smul`, lines 78-111)

`sround` is instantiated at `int64_t` (the widened product), with the fixed
`FRACBITS = 31`; the cast back to the sample type in `smul` is a two's
complement narrowing. The C++ arithmetic right shift on a signed value is
floor division by the corresponding power of two. -/

def sroundZ (x : ℤ) : ℤ := (x + 2 ^ 30) / 2 ^ 31

/-- Two's complement narrowing of an integer to a `B`-bit signed value. -/
def toSigned (B : ℕ) (x : ℤ) : ℤ := (x + 2 ^ (B - 1)) % 2 ^ B - 2 ^ (B - 1)

/-- `smul` for a `B`-bit signed sample type: widening product, `sround`, narrow. -/
def smulZ (B : ℕ) (a b : ℤ) : ℤ := toSigned B (sroundZ (a * b))

/-- Modelled from the spec (claim C6's reading, for refutation): scale the
widened product by `2^-(B-1)` rounding to nearest, ties away from zero. -/
def smulSpecTiesAway (B : ℕ) (a b : ℤ) : ℤ :=
  let x := a * b
  let k := B - 1
  if 0 ≤ x then (x + 2 ^ (k - 1)) / 2 ^ k
  else -((-x + 2 ^ (k - 1)) / 2 ^ k)

/-! ## Fixed-point twiddle tables (`scos` / `ssin`, integer branch)

`floor (0.5 + numeric_limits<T>::max() * cos(phase))`, idealizing the double
trigonometry as exact. -/

noncomputable def scosInt (B : ℕ) (phase : ℝ) : ℤ :=
  ⌊1 / 2 + ((2 : ℝ) ^ (B - 1) - 1) * Real.cos phase⌋

noncomputable def ssinInt (B : ℕ) (phase : ℝ) : ℤ :=
  ⌊1 / 2 + ((2 : ℝ) ^ (B - 1) - 1) * Real.sin phase⌋

/-- Integer-path forward twiddle table entry (`cexp (factor * i)`). -/
noncomputable def twIntF (B N i : ℕ) : Cx ℤ :=
  ⟨scosInt B (-2 * Real.pi / N * i), ssinInt B (-2 * Real.pi / N * i)⟩

/-- Integer-path inverse twiddle table entry (`cexp (factor * i * -1)`). -/
noncomputable def twIntI (B N i : ℕ) : Cx ℤ :=
  ⟨scosInt B (-2 * Real.pi / N * i * -1), ssinInt B (-2 * Real.pi / N * i * -1)⟩

/-! ## Real FFT wrapper

Two variants exist in the repository: the namespaced one (`part_001`, written
`FFTReal1` below) keeps a single real twiddle table, recombines in place in
`freqData`, ends `forward` with `memset (freqData + size, 0, …)`, and takes an
`inPlace` flag on `inverse`; the plain one (`part_000`, written `FFTReal0`)
recombines into the caller's `freqData` from a scratch complex buffer and has
no flag. Both build the same forward table
`cexp (-π * ((i+1)/size + 0.5))`, and both inverse passes use its conjugate. -/

/-- Real-FFT forward twiddle table entry
(`phase = -π * ((i + 1) / size + 0.5)`). -/
noncomputable def twReal (N : ℕ) (i : ℕ) : Cx ℝ :=
  cexpR (-Real.pi * ((i + 1) / N + 1 / 2))

/-- The Hermitian recombination both `forward` variants perform on the
length-`N` complex spectrum `X`: the DC/Nyquist split at bins `0` and `N`, and
for `k = 1 … N/2` the two writes at bins `k` and `N - k` (when `N` is even the
middle iteration writes bin `N/2` twice; the second write is the value that
remains). Iterations read only locations no earlier iteration wrote. -/
noncomputable def realForwardBins (N : ℕ) (X : ℕ → Cx ℝ) : ℕ → Cx ℝ :=
  fun i =>
    let tdc := X 0
    if i = 0 then ⟨tdc.re + tdc.im, 0⟩
    else if i ≤ N - 1 then
      let k := if i ≤ N / 2 then i else N - i
      let s0 := X k
      let s1 := Cx.conj (X (N - k))
      let fk := s0 + s1
      let fknc := s0 - s1
      let tw := Cx.cmul fknc (twReal N (k - 1))
      if i < N - i then ⟨halveR (fk.re + tw.re), halveR (fk.im + tw.im)⟩
      else ⟨halveR (fk.re - tw.re), halveR (tw.im - fk.im)⟩
    else if i = N then ⟨tdc.re - tdc.im, 0⟩
    else X i

/-- `FFTReal::forward` of `part_000`: complex FFT into a scratch buffer, then
recombination into `freqData`; bins above `N` are outside the output contract
(the variant leaves the caller's values there; the model leaves placeholders). -/
noncomputable def FFTReal0Forward (N : ℕ) (time : ℕ → ℝ) : ℕ → Cx ℝ :=
  realForwardBins N (FFTComplexForward N time)

/-- `FFTReal::forward` of `part_001` (lines 76-107): same recombination in
place, followed by `memset (freqData + size, 0, size * sizeof complex)`, which
zeroes bins `N … 2N-1`. -/
noncomputable def FFTReal1Forward (N : ℕ) (time : ℕ → ℝ) : ℕ → Cx ℝ :=
  fun i =>
    if N ≤ i ∧ i < 2 * N then ⟨0, 0⟩
    else realForwardBins N (FFTComplexForward N time) i

/-- The Hermitian pre-processing pass of `FFTReal::inverse` (`part_001` lines
129-139): for `k = 1 … N/2`, recombine `buf[k]`, `buf[N-k]` with the conjugate
forward twiddle; the middle iteration (even `N`, `k = N/2`) writes the same
location twice and the `conj (fk - tw)` write is the one that remains. -/
noncomputable def hermitianInvPass (N : ℕ) (buf : ℕ → Cx ℝ) : ℕ → Cx ℝ :=
  fun i =>
    if 1 ≤ i ∧ i ≤ N - 1 then
      let k := if i ≤ N / 2 then i else N - i
      let s0 := buf k
      let s1 := Cx.conj (buf (N - k))
      let fk := s0 + s1
      let fknc := s0 - s1
      let tw := Cx.cmul fknc (Cx.conj (twReal N (k - 1)))
      if i < N - i then fk + tw
      else Cx.conj (fk - tw)
    else buf i

/-- `FFTReal::inverse` of `part_001` (lines 109-142). With `inPlace = false`
the temp buffer is a fresh `alloca` scratch holding the DC/Nyquist combination
at slot 0 and a copy of bins `1 … N-1`; with `inPlace = true` the temp buffer
IS `freqData` (`const_cast`) and that combination step is skipped. The result
pairs the `freqData` region after the call with the written time samples. -/
noncomputable def FFTReal1Inverse (N : ℕ) (freq : ℕ → Cx ℝ) (inPlace : Bool) :
    (ℕ → Cx ℝ) × (ℕ → ℝ) :=
  let scratch : ℕ → Cx ℝ :=
    if inPlace then freq
    else fun j =>
      if j = 0 then ⟨(freq 0).re + (freq N).re, (freq 0).re - (freq N).re⟩
      else freq j
  let temp := hermitianInvPass N scratch
  (if inPlace then temp else freq, FFTComplexInverse N temp)

/-- The construction-time size check of `FFTReal`: `size = halve(fftSize)`
(an arithmetic shift, i.e. `M / 2`) and `assert((size & 1) == 0)`. `true`
means the assertion passes. -/
def realSizeCheckOK (M : ℕ) : Bool := (M / 2) % 2 == 0

/-! # Semantics

The pair `Cx ℝ` is read into `ℂ` by `toC`; `cmul`, which is the plain complex
product in the floating-point path, becomes multiplication, and `cexpR`
becomes the complex exponential. -/

def toC (z : Cx ℝ) : ℂ := ⟨z.re, z.im⟩

@[simp] theorem toC_re (z : Cx ℝ) : (toC z).re = z.re := rfl
@[simp] theorem toC_im (z : Cx ℝ) : (toC z).im = z.im := rfl

theorem toC_inj {a b : Cx ℝ} (h : toC a = toC b) : a = b := by
  cases a; cases b
  cases h
  rfl

@[simp] theorem toC_add (a b : Cx ℝ) : toC (a + b) = toC a + toC b := by
  apply Complex.ext <;> simp

@[simp] theorem toC_sub (a b : Cx ℝ) : toC (a - b) = toC a - toC b := by
  apply Complex.ext <;> simp

@[simp] theorem toC_cmul (a b : Cx ℝ) : toC (Cx.cmul a b) = toC a * toC b := by
  apply Complex.ext <;> simp [Complex.mul_re, Complex.mul_im]

theorem toC_mk (x y : ℝ) : toC ⟨x, y⟩ = (x : ℂ) + (y : ℂ) * Complex.I := by
  apply Complex.ext <;> simp

theorem toC_cexpR (θ : ℝ) : toC (cexpR θ) = Complex.exp ((θ : ℂ) * Complex.I) := by
  rw [Complex.exp_mul_I]
  apply Complex.ext <;>
    simp [cexpR, Complex.cos_ofReal_re, Complex.sin_ofReal_re,
      Complex.cos_ofReal_im, Complex.sin_ofReal_im]

/-- `toC x - I * toC y` matches the component pattern
`(x.re + y.im, x.im - y.re)` used by `butterfly4`. -/
theorem toC_sub_I_mul (x y : Cx ℝ) :
    toC (⟨x.re + y.im, x.im - y.re⟩ : Cx ℝ) = toC x - Complex.I * toC y := by
  apply Complex.ext <;> simp [Complex.mul_re, Complex.mul_im] <;> ring

/-- `toC x + I * toC y` matches the component pattern
`(x.re - y.im, x.im + y.re)` used by `butterfly4`. -/
theorem toC_add_I_mul (x y : Cx ℝ) :
    toC (⟨x.re - y.im, x.im + y.re⟩ : Cx ℝ) = toC x + Complex.I * toC y := by
  apply Complex.ext <;> simp [Complex.mul_re, Complex.mul_im] <;> ring

/-- The primitive root the size-`N` tables sample: `exp(∓2πi/N)`, the sign
chosen by the transform direction. -/
noncomputable def zeta (N : ℕ) (inv : Bool) : ℂ :=
  Complex.exp ((((if inv then 1 else -1) * (2 * Real.pi) / N : ℝ) : ℂ) * Complex.I)

theorem zeta_pow (N : ℕ) (inv : Bool) (k : ℕ) :
    zeta N inv ^ k =
      Complex.exp ((((if inv then 1 else -1) * (2 * Real.pi) * k / N : ℝ) : ℂ) * Complex.I) := by
  rw [zeta, ← Complex.exp_nat_mul]
  congr 1
  push_cast
  ring

theorem toC_twTableF (N i : ℕ) : toC (twTableF N i) = zeta N false ^ i := by
  rw [twTableF, toC_cexpR, zeta_pow]
  congr 2
  push_cast
  ring

theorem toC_twTableI (N i : ℕ) : toC (twTableI N i) = zeta N true ^ i := by
  rw [twTableI, toC_cexpR, zeta_pow]
  congr 2
  push_cast
  norm_num
  ring

theorem zeta_pow_N {N : ℕ} (hN : 0 < N) (inv : Bool) : zeta N inv ^ N = 1 := by
  have hN0 : (N : ℝ) ≠ 0 := Nat.cast_ne_zero.mpr hN.ne'
  cases inv
  · rw [zeta_pow]
    show Complex.exp ((((-1 : ℝ) * (2 * Real.pi) * N / N : ℝ) : ℂ) * Complex.I) = 1
    have h : ((-1 : ℝ) * (2 * Real.pi) * N / N : ℝ) = -(2 * Real.pi) := by
      field_simp
    rw [h]
    push_cast
    rw [neg_mul, Complex.exp_neg, Complex.exp_two_pi_mul_I, inv_one]
  · rw [zeta_pow]
    show Complex.exp ((((1 : ℝ) * (2 * Real.pi) * N / N : ℝ) : ℂ) * Complex.I) = 1
    have h : ((1 : ℝ) * (2 * Real.pi) * N / N : ℝ) = 2 * Real.pi := by
      field_simp
    rw [h]
    push_cast
    exact Complex.exp_two_pi_mul_I

theorem zeta_pow_mod {N : ℕ} (hN : 0 < N) (inv : Bool) (x : ℕ) :
    zeta N inv ^ (x % N) = zeta N inv ^ x := by
  conv_rhs => rw [← Nat.div_add_mod x N]
  rw [pow_add, pow_mul, zeta_pow_N hN, one_pow, one_mul]

theorem zeta_ne_zero (N : ℕ) (inv : Bool) : zeta N inv ≠ 0 :=
  Complex.exp_ne_zero _

/-- Half turn: with `2k = N`, `ζ^k = -1` in both directions. -/
theorem zeta_pow_half {N k : ℕ} (hk : 0 < k) (h : 2 * k = N) (inv : Bool) :
    zeta N inv ^ k = -1 := by
  subst h
  have hk0 : (k : ℝ) ≠ 0 := Nat.cast_ne_zero.mpr hk.ne'
  cases inv
  · rw [zeta_pow]
    show Complex.exp ((((-1 : ℝ) * (2 * Real.pi) * k / ((2 * k : ℕ) : ℝ) : ℝ) : ℂ) * Complex.I) = -1
    have h : ((-1 : ℝ) * (2 * Real.pi) * k / ((2 * k : ℕ) : ℝ) : ℝ) = -Real.pi := by
      push_cast
      field_simp
      ring
    rw [h]
    push_cast
    rw [neg_mul, Complex.exp_neg, Complex.exp_pi_mul_I]
    norm_num
  · rw [zeta_pow]
    show Complex.exp ((((1 : ℝ) * (2 * Real.pi) * k / ((2 * k : ℕ) : ℝ) : ℝ) : ℂ) * Complex.I) = -1
    have h : ((1 : ℝ) * (2 * Real.pi) * k / ((2 * k : ℕ) : ℝ) : ℝ) = Real.pi := by
      push_cast
      field_simp
      ring
    rw [h]
    exact Complex.exp_pi_mul_I

/-- Quarter turn: with `4k = N`, `ζ^k` is `-i` forward and `+i` inverse. -/
theorem zeta_pow_quarter {N k : ℕ} (hk : 0 < k) (h : 4 * k = N) (inv : Bool) :
    zeta N inv ^ k = if inv then Complex.I else -Complex.I := by
  subst h
  have hk0 : (k : ℝ) ≠ 0 := Nat.cast_ne_zero.mpr hk.ne'
  have hI : Complex.exp (((Real.pi / 2 : ℝ) : ℂ) * Complex.I) = Complex.I := by
    rw [Complex.exp_mul_I]
    simp [← Complex.ofReal_cos, ← Complex.ofReal_sin, Real.cos_pi_div_two, Real.sin_pi_div_two]
  cases inv
  · rw [zeta_pow]
    show Complex.exp ((((-1 : ℝ) * (2 * Real.pi) * k / ((4 * k : ℕ) : ℝ) : ℝ) : ℂ) * Complex.I) =
      -Complex.I
    have h : ((-1 : ℝ) * (2 * Real.pi) * k / ((4 * k : ℕ) : ℝ) : ℝ) = -(Real.pi / 2) := by
      push_cast
      field_simp
      ring
    rw [h]
    push_cast
    rw [neg_mul, Complex.exp_neg]
    rw [show ((Real.pi : ℂ) / 2) = ((Real.pi / 2 : ℝ) : ℂ) by push_cast; ring, hI]
    simp [Complex.inv_I]
  · rw [zeta_pow]
    show Complex.exp ((((1 : ℝ) * (2 * Real.pi) * k / ((4 * k : ℕ) : ℝ) : ℝ) : ℂ) * Complex.I) =
      Complex.I
    have h : ((1 : ℝ) * (2 * Real.pi) * k / ((4 * k : ℕ) : ℝ) : ℝ) = Real.pi / 2 := by
      push_cast
      field_simp
      ring
    rw [h]
    exact hI

/-! ## Cooley-Tukey sum bookkeeping -/

theorem sum_range_add_split {M : Type} [AddCommMonoid M] (f : ℕ → M) (a b : ℕ) :
    ∑ n ∈ Finset.range (a + b), f n
      = (∑ n ∈ Finset.range a, f n) + ∑ n ∈ Finset.range b, f (a + n) := by
  induction b with
  | zero => simp
  | succ b ih =>
    rw [show a + (b + 1) = (a + b) + 1 from rfl, Finset.sum_range_succ, ih,
      Finset.sum_range_succ, add_assoc]

theorem sum_range_mul_split {M : Type} [AddCommMonoid M] (f : ℕ → M) (r m : ℕ) :
    ∑ n ∈ Finset.range (r * m), f n
      = ∑ q ∈ Finset.range r, ∑ s ∈ Finset.range m, f (q + s * r) := by
  induction m with
  | zero => simp
  | succ m ih =>
    rw [Nat.mul_succ, sum_range_add_split, ih, ← Finset.sum_add_distrib]
    refine Finset.sum_congr rfl (fun q _ => ?_)
    rw [Finset.sum_range_succ]
    congr 1
    rw [Nat.add_comm (r * m) q, Nat.mul_comm r m]

/-- Splitting the full DFT sum of length `r*m` at output index `j` into the `r`
sub-spectra evaluated at `j % m`, using `ζ^N = 1`. -/
theorem dft_split {N : ℕ} (σ r m : ℕ) (inv : Bool) (hN : 0 < N)
    (hrm : σ * (r * m) = N) (X : ℕ → ℂ) (j : ℕ) :
    ∑ n ∈ Finset.range (r * m), X n * zeta N inv ^ (σ * n * j)
      = ∑ q ∈ Finset.range r,
          zeta N inv ^ (σ * q * j) *
            ∑ s ∈ Finset.range m, X (q + s * r) * zeta N inv ^ (σ * r * s * (j % m)) := by
  rw [sum_range_mul_split]
  refine Finset.sum_congr rfl (fun q _ => ?_)
  rw [Finset.mul_sum]
  refine Finset.sum_congr rfl (fun s _ => ?_)
  have h2 : σ * r * s * j = σ * r * s * (j % m) + N * (s * (j / m)) := by
    conv_lhs => rw [show j = m * (j / m) + j % m from (Nat.div_add_mod j m).symm]
    rw [← hrm]
    ring
  have hexp : σ * (q + s * r) * j
      = σ * q * j + (σ * r * s * (j % m) + N * (s * (j / m))) := by
    rw [← h2]
    ring
  rw [hexp, pow_add, pow_add, pow_mul (zeta N inv) N, zeta_pow_N hN, one_pow, mul_one]
  ring

/-! ## Butterfly kernels compute the radix-`r` combination step -/

theorem butterfly2_toC {N : ℕ} (σ m : ℕ) (inv : Bool) (hσ : 0 < σ) (hm : 0 < m)
    (hN : σ * (2 * m) = N) (pre : ℕ → Cx ℝ) (tw : ℕ → Cx ℝ)
    (htw : ∀ i, toC (tw i) = zeta N inv ^ i) :
    ∀ j < 2 * m, toC (butterfly2 pre σ m tw j)
      = ∑ q ∈ Finset.range 2, zeta N inv ^ (σ * q * j) * toC (pre (q * m + j % m)) := by
  have hhalf : zeta N inv ^ (σ * m) = -1 :=
    zeta_pow_half (Nat.mul_pos hσ hm) (by rw [← hN]; ring) inv
  intro j hj
  rw [Finset.sum_range_succ, Finset.sum_range_succ, Finset.sum_range_zero]
  by_cases h1 : j < m
  · have hjm : j % m = j := Nat.mod_eq_of_lt h1
    rw [butterfly2, if_pos h1, toC_add, toC_cmul, htw, hjm]
    have e1 : σ * 1 * j = j * σ := by ring
    rw [show (0 : ℕ) * m + j = j from by ring, show (1 : ℕ) * m + j = m + j from by ring,
      show σ * 0 * j = 0 from by ring, e1, pow_zero, Nat.add_comm m j]
    ring
  · have h2 : m ≤ j := le_of_not_lt h1
    obtain ⟨u, rfl⟩ := Nat.exists_eq_add_of_le h2
    have hu : u < m := by omega
    have hum : (m + u) % m = u := by
      rw [Nat.add_mod_left, Nat.mod_eq_of_lt hu]
    rw [butterfly2, if_neg h1, if_pos hj, toC_sub, toC_cmul, htw, hum]
    rw [show m + u - m = u from by omega]
    have e1 : σ * 1 * (m + u) = σ * m + u * σ := by ring
    rw [show (0 : ℕ) * m + u = u from by ring, show (1 : ℕ) * m + u = m + u from by ring,
      show σ * 0 * (m + u) = 0 from by ring, e1, pow_zero, pow_add, hhalf]
    ring

theorem butterfly4_toC {N : ℕ} (σ m : ℕ) (inv : Bool) (hσ : 0 < σ) (hm : 0 < m)
    (hN : σ * (4 * m) = N) (pre : ℕ → Cx ℝ) (tw : ℕ → Cx ℝ)
    (htw : ∀ i, toC (tw i) = zeta N inv ^ i) :
    ∀ j < 4 * m, toC (butterfly4 pre σ m tw inv j)
      = ∑ q ∈ Finset.range 4, zeta N inv ^ (σ * q * j) * toC (pre (q * m + j % m)) := by
  have hc2 : (zeta N inv ^ (σ * m)) ^ 2 = -1 := by
    rw [← pow_mul]
    exact zeta_pow_half (Nat.mul_pos (Nat.mul_pos hσ hm) (by norm_num))
      (by rw [← hN]; ring) inv
  have hc3 : (zeta N inv ^ (σ * m)) ^ 3 = -(zeta N inv ^ (σ * m)) := by
    rw [show (3 : ℕ) = 2 + 1 from rfl, pow_add, hc2, pow_one]
    ring
  have hc4 : (zeta N inv ^ (σ * m)) ^ 4 = 1 := by
    rw [show (4 : ℕ) = 2 * 2 from rfl, pow_mul, hc2]
    ring
  have hc6 : (zeta N inv ^ (σ * m)) ^ 6 = -1 := by
    rw [show (6 : ℕ) = 2 + 4 from rfl, pow_add, hc2, hc4]
    ring
  have hc9 : (zeta N inv ^ (σ * m)) ^ 9 = zeta N inv ^ (σ * m) := by
    rw [show (9 : ℕ) = 4 + (4 + 1) from rfl, pow_add, pow_add, hc4, pow_one]
    ring
  have hcI : zeta N inv ^ (σ * m) = if inv then Complex.I else -Complex.I :=
    zeta_pow_quarter (Nat.mul_pos hσ hm) (by rw [← hN]; ring) inv
  intro j hj4
  rw [Finset.sum_range_succ, Finset.sum_range_succ, Finset.sum_range_succ,
    Finset.sum_range_succ, Finset.sum_range_zero]
  by_cases hb1 : j < m
  · -- band 0: out[i] + s1 + s3
    have hjm : j % m = j := Nat.mod_eq_of_lt hb1
    simp only [butterfly4]
    rw [if_pos hj4, hjm, if_pos hb1]
    simp only [toC_add, toC_cmul, htw]
    rw [show (0 : ℕ) * m + j = j from by ring, show (1 : ℕ) * m + j = j + m from by ring,
      show (2 : ℕ) * m + j = j + 2 * m from by ring,
      show (3 : ℕ) * m + j = j + 3 * m from by ring,
      show σ * 0 * j = 0 from by ring, pow_zero]
    ring
  · by_cases hb2 : j < 2 * m
    · -- band 1: the ±i*s4 band
      obtain ⟨u, rfl⟩ := Nat.exists_eq_add_of_le (le_of_not_lt hb1)
      have hu : u < m := by omega
      have hmod : (m + u) % m = u := by
        rw [Nat.add_mod_left, Nat.mod_eq_of_lt hu]
      simp only [butterfly4]
      rw [if_pos hj4, hmod, if_neg hb1, if_pos hb2]
      have E1 : zeta N inv ^ (σ * 1 * (m + u))
          = zeta N inv ^ (σ * m) * zeta N inv ^ (σ * 1 * u) := by
        rw [← pow_add]
        congr 1
        ring
      have E2 : zeta N inv ^ (σ * 2 * (m + u))
          = (zeta N inv ^ (σ * m)) ^ 2 * zeta N inv ^ (σ * 2 * u) := by
        rw [← pow_mul, ← pow_add]
        congr 1
        ring
      have E3 : zeta N inv ^ (σ * 3 * (m + u))
          = (zeta N inv ^ (σ * m)) ^ 3 * zeta N inv ^ (σ * 3 * u) := by
        rw [← pow_mul, ← pow_add]
        congr 1
        ring
      rw [E1, E2, E3, hc2, hc3, show σ * 0 * (m + u) = 0 from by ring, pow_zero,
        show (0 : ℕ) * m + u = u from by ring, show (1 : ℕ) * m + u = u + m from by ring,
        show (2 : ℕ) * m + u = u + 2 * m from by ring,
        show (3 : ℕ) * m + u = u + 3 * m from by ring]
      cases inv
      · have hcF : zeta N false ^ (σ * m) = -Complex.I := by simpa using hcI
        have hI : Complex.I = -(zeta N false ^ (σ * m)) := by
          rw [hcF]
          ring
        rw [if_neg Bool.false_ne_true, toC_sub_I_mul, hI]
        simp only [toC_sub, toC_add, toC_cmul, htw]
        ring
      · have hI : Complex.I = zeta N true ^ (σ * m) := by simpa using hcI.symm
        rw [if_pos rfl, toC_add_I_mul, hI]
        simp only [toC_sub, toC_add, toC_cmul, htw]
        ring
    · by_cases hb3 : j < 3 * m
      · -- band 2: out[i] + s1 - s3
        obtain ⟨u, rfl⟩ := Nat.exists_eq_add_of_le (le_of_not_lt hb2)
        have hu : u < m := by omega
        have hmod : (2 * m + u) % m = u := by
          rw [Nat.add_comm, Nat.add_mul_mod_self_right, Nat.mod_eq_of_lt hu]
        simp only [butterfly4]
        rw [if_pos hj4, hmod, if_neg hb1, if_neg hb2, if_pos hb3]
        have E1 : zeta N inv ^ (σ * 1 * (2 * m + u))
            = (zeta N inv ^ (σ * m)) ^ 2 * zeta N inv ^ (σ * 1 * u) := by
          rw [← pow_mul, ← pow_add]
          congr 1
          ring
        have E2 : zeta N inv ^ (σ * 2 * (2 * m + u))
            = (zeta N inv ^ (σ * m)) ^ 4 * zeta N inv ^ (σ * 2 * u) := by
          rw [← pow_mul, ← pow_add]
          congr 1
          ring
        have E3 : zeta N inv ^ (σ * 3 * (2 * m + u))
            = (zeta N inv ^ (σ * m)) ^ 6 * zeta N inv ^ (σ * 3 * u) := by
          rw [← pow_mul, ← pow_add]
          congr 1
          ring
        rw [E1, E2, E3, hc2, hc4, hc6, show σ * 0 * (2 * m + u) = 0 from by ring, pow_zero,
          show (0 : ℕ) * m + u = u from by ring, show (1 : ℕ) * m + u = u + m from by ring,
          show (2 : ℕ) * m + u = u + 2 * m from by ring,
          show (3 : ℕ) * m + u = u + 3 * m from by ring]
        simp only [toC_sub, toC_add, toC_cmul, htw]
        ring
      · -- band 3: the ∓i*s4 band
        obtain ⟨u, rfl⟩ := Nat.exists_eq_add_of_le (le_of_not_lt hb3)
        have hu : u < m := by omega
        have hmod : (3 * m + u) % m = u := by
          rw [Nat.add_comm, Nat.add_mul_mod_self_right, Nat.mod_eq_of_lt hu]
        simp only [butterfly4]
        rw [if_pos hj4, hmod, if_neg hb1, if_neg hb2, if_neg hb3]
        have E1 : zeta N inv ^ (σ * 1 * (3 * m + u))
            = (zeta N inv ^ (σ * m)) ^ 3 * zeta N inv ^ (σ * 1 * u) := by
          rw [← pow_mul, ← pow_add]
          congr 1
          ring
        have E2 : zeta N inv ^ (σ * 2 * (3 * m + u))
            = (zeta N inv ^ (σ * m)) ^ 6 * zeta N inv ^ (σ * 2 * u) := by
          rw [← pow_mul, ← pow_add]
          congr 1
          ring
        have E3 : zeta N inv ^ (σ * 3 * (3 * m + u))
            = (zeta N inv ^ (σ * m)) ^ 9 * zeta N inv ^ (σ * 3 * u) := by
          rw [← pow_mul, ← pow_add]
          congr 1
          ring
        rw [E1, E2, E3, hc3, hc6, hc9, show σ * 0 * (3 * m + u) = 0 from by ring, pow_zero,
          show (0 : ℕ) * m + u = u from by ring, show (1 : ℕ) * m + u = u + m from by ring,
          show (2 : ℕ) * m + u = u + 2 * m from by ring,
          show (3 : ℕ) * m + u = u + 3 * m from by ring]
        cases inv
        · have hcF : zeta N false ^ (σ * m) = -Complex.I := by simpa using hcI
          have hI : Complex.I = -(zeta N false ^ (σ * m)) := by
            rw [hcF]
            ring
          rw [if_neg Bool.false_ne_true, toC_add_I_mul, hI]
          simp only [toC_sub, toC_add, toC_cmul, htw]
          ring
        · have hI : Complex.I = zeta N true ^ (σ * m) := by simpa using hcI.symm
          rw [if_pos rfl, toC_sub_I_mul, hI]
          simp only [toC_sub, toC_add, toC_cmul, htw]
          ring

/-- The incrementally maintained twiddle index of `butterflyGeneric`: after `q`
increments of `inc` with one conditional subtraction per step, it is exactly
`inc * q` reduced modulo `N` (using that each increment stays below `N`). -/
theorem genAux_fst {R : Type} [CommRing R] (scratch tw : ℕ → Cx R) {N : ℕ}
    (hN : 0 < N) {inc : ℕ} (hinc : inc < N) :
    ∀ q, (genAux scratch tw N inc q).1 = inc * q % N := by
  intro q
  induction q with
  | zero => simp [genAux]
  | succ q ih =>
    have h1 : inc * q % N < N := Nat.mod_lt _ hN
    have h2 : inc * (q + 1) % N = (inc * q % N + inc) % N := by
      rw [Nat.mul_succ, Nat.add_mod, Nat.mod_eq_of_lt hinc]
    simp only [genAux]
    rw [ih, h2]
    by_cases hge : inc * q % N + inc ≥ N
    · have hlt : inc * q % N + inc - N < N := by omega
      rw [if_pos hge, Nat.mod_eq_sub_mod hge, Nat.mod_eq_of_lt hlt]
    · have hlt : inc * q % N + inc < N := by omega
      rw [if_neg hge, Nat.mod_eq_of_lt hlt]

/-- The running sum of `butterflyGeneric`, with each table access read at the
reduced index. -/
theorem genAux_snd_toC (scratch tw : ℕ → Cx ℝ) {N : ℕ} (hN : 0 < N) {inc : ℕ}
    (hinc : inc < N) :
    ∀ n, toC (genAux scratch tw N inc n).2
      = toC (scratch 0)
        + ∑ t ∈ Finset.range n, toC (scratch (t + 1)) * toC (tw (inc * (t + 1) % N)) := by
  intro n
  induction n with
  | zero => simp [genAux]
  | succ n ih =>
    have hT := genAux_fst scratch tw hN hinc (n + 1)
    simp only [genAux] at hT ⊢
    rw [toC_add, toC_cmul, ih, hT, Finset.sum_range_succ]
    ring

theorem butterflyGeneric_toC {N : ℕ} (σ r m : ℕ) (inv : Bool) (hσ : 0 < σ)
    (hm : 0 < m) (hN : σ * (r * m) = N) (pre : ℕ → Cx ℝ) (tw : ℕ → Cx ℝ)
    (htw : ∀ i, toC (tw i) = zeta N inv ^ i) :
    ∀ j < r * m, toC (butterflyGeneric pre σ r m N tw j)
      = ∑ q ∈ Finset.range r, zeta N inv ^ (σ * q * j) * toC (pre (q * m + j % m)) := by
  intro j hj
  have hrm : 0 < r * m := lt_of_le_of_lt (Nat.zero_le j) hj
  have hr : 0 < r := by
    rcases Nat.eq_zero_or_pos r with h | h
    · rw [h, Nat.zero_mul] at hrm
      exact absurd hrm (lt_irrefl 0)
    · exact h
  have hN0 : 0 < N := by
    rw [← hN]
    exact Nat.mul_pos hσ hrm
  have hinc : σ * j < N := by
    calc σ * j < σ * j + σ := by omega
    _ = σ * (j + 1) := by ring
    _ ≤ σ * (r * m) := Nat.mul_le_mul_left σ (by omega)
    _ = N := hN
  have hter : ∀ x : ℕ, toC (tw (σ * j * x % N)) = zeta N inv ^ (σ * x * j) := by
    intro x
    rw [htw, zeta_pow_mod hN0]
    congr 1
    ring
  simp only [butterflyGeneric]
  rw [if_pos hj, genAux_snd_toC _ _ hN0 hinc]
  simp only [hter]
  conv_rhs => rw [show r = (r - 1) + 1 from by omega, Finset.sum_range_succ']
  rw [add_comm]
  congr 1
  · refine Finset.sum_congr rfl (fun t _ => ?_)
    rw [Nat.add_comm (j % m) ((t + 1) * m)]
    ring
  · rw [show σ * 0 * j = 0 from by ring, pow_zero, one_mul,
      show (0 : ℕ) * m + j % m = j % m + 0 * m from by ring]

/-- Main correctness of the recursive driver: on a well-formed factor list of
product `L` with `stride * L = N`, `perform` writes the length-`L` DFT of the
strided sub-signal, the twiddles being sampled from the global size-`N` table
at multiples of `stride`. -/
theorem performRec_dft {N : ℕ} (inv : Bool) (fs : List Factor) :
    ∀ (L stride inStride : ℕ) (input : ℕ → Cx ℝ),
      FactorsOK fs L → stride * L = N → 0 < stride →
      ∀ j < L,
        toC (performRec N (twTableF N) (twTableI N) inv fs stride inStride input j)
          = ∑ n ∈ Finset.range L,
              toC (input (n * (stride * inStride))) * zeta N inv ^ (stride * n * j) := by
  induction fs with
  | nil =>
    intro L stride inStride input hok _ _ j _
    exact hok.elim
  | cons f fs ih =>
    rcases f with ⟨r, m⟩
    intro L stride inStride input hok hsl hσ j hj
    obtain ⟨hfl, hrest⟩ := hok
    dsimp only at hfl hrest
    subst hfl
    have hr : 0 < r := by
      rcases Nat.eq_zero_or_pos r with h | h
      · subst h
        rw [Nat.zero_mul] at hj
        exact absurd hj (Nat.not_lt_zero j)
      · exact h
    have hm : 0 < m := by
      rcases Nat.eq_zero_or_pos m with h | h
      · subst h
        rw [Nat.mul_zero] at hj
        exact absurd hj (Nat.not_lt_zero j)
      · exact h
    have hN0 : 0 < N := by
      rw [← hsl]
      exact Nat.mul_pos hσ (lt_of_le_of_lt (Nat.zero_le j) hj)
    have htw : ∀ i, toC ((if inv then twTableI N else twTableF N) i) = zeta N inv ^ i := by
      intro i
      cases inv
      · exact toC_twTableF N i
      · exact toC_twTableI N i
    have hpreval : ∀ q : ℕ,
        toC ((if m = 1 then fun jj => input (jj * (stride * inStride))
              else fun jj =>
                performRec N (twTableF N) (twTableI N) inv fs (stride * r) inStride
                  (fun t => input (jj / m * (stride * inStride) + t)) (jj % m))
            (q * m + j % m))
          = ∑ s ∈ Finset.range m,
              toC (input ((q + s * r) * (stride * inStride)))
                * zeta N inv ^ (stride * r * s * (j % m)) := by
      intro q
      by_cases hm1 : m = 1
      · rw [if_pos hm1]
        subst hm1
        simp only [Nat.mod_one, Nat.mul_one, Nat.add_zero, Finset.sum_range_one,
          Nat.mul_zero, Nat.zero_mul, pow_zero, mul_one]
      · rw [if_neg hm1]
        have hu : j % m < m := Nat.mod_lt _ hm
        have hdiv : (q * m + j % m) / m = q := by
          rw [Nat.add_comm, Nat.add_mul_div_right _ _ hm, Nat.div_eq_of_lt hu, Nat.zero_add]
        have hmod : (q * m + j % m) % m = j % m := by
          rw [Nat.add_comm, Nat.add_mul_mod_self_right, Nat.mod_eq_of_lt hu]
        have hok2 : FactorsOK fs m := hrest.resolve_left hm1
        have hsl2 : (stride * r) * m = N := by
          rw [← hsl]
          ring
        have hσ2 : 0 < stride * r := Nat.mul_pos hσ hr
        simp only [hdiv, hmod]
        rw [ih m (stride * r) inStride
          (fun t => input (q * (stride * inStride) + t)) hok2 hsl2 hσ2 (j % m) hu]
        refine Finset.sum_congr rfl (fun s _ => ?_)
        rw [show q * (stride * inStride) + s * (stride * r * inStride)
            = (q + s * r) * (stride * inStride) from by ring]
    simp only [performRec]
    split
    · -- radix 2
      rw [butterfly2_toC stride m inv hσ hm hsl _ _ htw j hj]
      simp only [hpreval]
      exact (dft_split stride 2 m inv hN0 hsl
        (fun n => toC (input (n * (stride * inStride)))) j).symm
    · -- radix 4
      rw [butterfly4_toC stride m inv hσ hm hsl _ _ htw j hj]
      simp only [hpreval]
      exact (dft_split stride 4 m inv hN0 hsl
        (fun n => toC (input (n * (stride * inStride)))) j).symm
    · -- generic radix
      rw [butterflyGeneric_toC stride r m inv hσ hm hsl _ _ htw j hj]
      simp only [hpreval]
      exact (dft_split stride r m inv hN0 hsl
        (fun n => toC (input (n * (stride * inStride)))) j).symm

/-! ## The constructor's factor list is well-formed -/

theorem findRadix_dvd : ∀ fuel root f p : ℕ, f % findRadix fuel root f p = 0 := by
  intro fuel
  induction fuel with
  | zero => intro root f p; exact Nat.mod_self f
  | succ fuel ih =>
    intro root f p
    simp only [findRadix]
    by_cases h : f % p = 0
    · rw [if_pos h]
      exact h
    · rw [if_neg h]
      by_cases h2 : advanceP p > root
      · rw [if_pos h2]
        exact Nat.mod_self f
      · rw [if_neg h2]
        exact ih root f (advanceP p)

theorem advanceP_two_le {p : ℕ} (hp : 2 ≤ p) : 2 ≤ advanceP p := by
  simp only [advanceP]
  by_cases h4 : p = 4
  · rw [if_pos h4]
  · rw [if_neg h4]
    by_cases h2 : p = 2
    · rw [if_pos h2]
      omega
    · rw [if_neg h2]
      omega

theorem findRadix_two_le : ∀ fuel root f p : ℕ, 2 ≤ p → 2 ≤ f →
    2 ≤ findRadix fuel root f p := by
  intro fuel
  induction fuel with
  | zero => intro root f p _ hf; exact hf
  | succ fuel ih =>
    intro root f p hp hf
    simp only [findRadix]
    by_cases h : f % p = 0
    · rw [if_pos h]
      exact hp
    · rw [if_neg h]
      by_cases h2 : advanceP p > root
      · rw [if_pos h2]
        exact hf
      · rw [if_neg h2]
        exact ih root f (advanceP p) (advanceP_two_le hp) hf

theorem buildFactors_ok : ∀ fuel root f p : ℕ, 0 < f → f ≤ fuel → 2 ≤ p →
    FactorsOK (buildFactors fuel root f p) f := by
  intro fuel
  induction fuel with
  | zero => intro root f p hf hle _; omega
  | succ fuel ih =>
    intro root f p hf hle hp
    simp only [buildFactors]
    have hdvd : f % findRadix (root + 4) root f p = 0 := findRadix_dvd _ _ _ _
    have hmul : findRadix (root + 4) root f p * (f / findRadix (root + 4) root f p) = f :=
      Nat.mul_div_cancel' (Nat.dvd_of_mod_eq_zero hdvd)
    by_cases hf2 : f / findRadix (root + 4) root f p > 1
    · rw [if_pos hf2]
      refine ⟨hmul, Or.inr ?_⟩
      have hfge : 2 ≤ f := by
        by_contra hcon
        have hf1 : f = 1 := by omega
        subst hf1
        exact absurd (lt_of_lt_of_le hf2 (Nat.div_le_self 1 _)) (by omega)
      have hr2 : 2 ≤ findRadix (root + 4) root f p := findRadix_two_le _ _ _ _ hp hfge
      have hlt : f / findRadix (root + 4) root f p < f := Nat.div_lt_self hf hr2
      exact ih root _ _ (by omega) (by omega) hr2
    · rw [if_neg hf2]
      have h1 : f / findRadix (root + 4) root f p = 1 := by
        have h0 : 0 < f / findRadix (root + 4) root f p := by
          rcases Nat.eq_zero_or_pos (f / findRadix (root + 4) root f p) with h | h
          · rw [h, Nat.mul_zero] at hmul
            omega
          · exact h
        omega
      exact ⟨hmul, Or.inl h1⟩

/-- The factor list the constructor builds for `N ≥ 1` decomposes `N`. -/
theorem factorsOK_computeFactors {N : ℕ} (hN : 1 ≤ N) :
    FactorsOK (computeFactors N) N :=
  buildFactors_ok (N + 1) (Nat.sqrt N) N 4 hN (by omega) (by norm_num)

/-! ## Orthogonality of the twiddle roots -/

theorem zeta_true_pow (N k : ℕ) :
    zeta N true ^ k = Complex.exp ((((2 * Real.pi) * k / N : ℝ) : ℂ) * Complex.I) := by
  rw [zeta_pow]
  congr 2
  norm_num

theorem zeta_false_pow (N k : ℕ) :
    zeta N false ^ k = Complex.exp (((-((2 * Real.pi) * k / N) : ℝ) : ℂ) * Complex.I) := by
  rw [zeta_pow]
  congr 2
  push_cast
  norm_num
  ring

theorem zeta_mul_self (N : ℕ) : zeta N false * zeta N true = 1 := by
  rw [zeta, zeta]
  show Complex.exp ((((-1 : ℝ) * (2 * Real.pi) / N : ℝ) : ℂ) * Complex.I)
      * Complex.exp ((((1 : ℝ) * (2 * Real.pi) / N : ℝ) : ℂ) * Complex.I) = 1
  rw [← Complex.exp_add,
    show ((((-1 : ℝ) * (2 * Real.pi) / N : ℝ) : ℂ) * Complex.I
        + (((1 : ℝ) * (2 * Real.pi) / N : ℝ) : ℂ) * Complex.I) = 0 from by push_cast; ring]
  exact Complex.exp_zero

/-- Sum over all `N`-th unit-circle samples: `N` on the diagonal, zero off it. -/
theorem zeta_orth {N : ℕ} (hN : 0 < N) (n j : ℕ) (hn : n < N) (hj : j < N) :
    ∑ k ∈ Finset.range N, (zeta N true ^ j * zeta N false ^ n) ^ k
      = if n = j then (N : ℂ) else 0 := by
  have hNR : (N : ℝ) ≠ 0 := Nat.cast_ne_zero.mpr hN.ne'
  by_cases hnj : n = j
  · subst hnj
    have hz : zeta N true ^ n * zeta N false ^ n = 1 := by
      rw [← mul_pow, mul_comm (zeta N true) (zeta N false), zeta_mul_self, one_pow]
    rw [if_pos rfl, hz]
    simp
  · rw [if_neg hnj]
    have hzN : (zeta N true ^ j * zeta N false ^ n) ^ N = 1 := by
      rw [mul_pow, ← pow_mul, ← pow_mul, mul_comm j N, mul_comm n N, pow_mul, pow_mul,
        zeta_pow_N hN, zeta_pow_N hN, one_pow, one_pow, one_mul]
    have hz1 : zeta N true ^ j * zeta N false ^ n ≠ 1 := by
      intro hz1
      rw [zeta_true_pow, zeta_false_pow, ← Complex.exp_add,
        show ((((2 * Real.pi) * j / N : ℝ) : ℂ) * Complex.I
            + ((-((2 * Real.pi) * n / N) : ℝ) : ℂ) * Complex.I)
          = (((2 * Real.pi) * ((j : ℝ) - n) / N : ℝ) : ℂ) * Complex.I from by
            push_cast; ring] at hz1
      obtain ⟨mI, hm⟩ := Complex.exp_eq_one_iff.mp hz1
      rw [show ((mI : ℂ) * (2 * (Real.pi : ℂ) * Complex.I))
          = (((mI : ℝ) * (2 * Real.pi) : ℝ) : ℂ) * Complex.I from by push_cast; ring] at hm
      have hre : (2 * Real.pi) * ((j : ℝ) - n) / N = (mI : ℝ) * (2 * Real.pi) :=
        Complex.ofReal_inj.mp (mul_right_cancel₀ Complex.I_ne_zero hm)
      have hjn : (j : ℝ) - n = (mI : ℝ) * N := by
        have h2p : (2 * Real.pi) ≠ 0 := by positivity
        field_simp at hre
        exact mul_left_cancel₀ h2p (by linear_combination hre)
      have hnR : (n : ℝ) < N := by exact_mod_cast hn
      have hjR : (j : ℝ) < N := by exact_mod_cast hj
      have hNpos : (0 : ℝ) < N := by positivity
      have hm0 : mI = 0 := by
        have hub : (mI : ℝ) * N < N := by
          rw [← hjn]
          have h0n : (0 : ℝ) ≤ n := Nat.cast_nonneg n
          linarith
        have hlb : -(N : ℝ) < (mI : ℝ) * N := by
          rw [← hjn]
          have h0j : (0 : ℝ) ≤ j := Nat.cast_nonneg j
          linarith
        have hub' : (mI : ℝ) < 1 := by
          by_contra hcon
          push_neg at hcon
          have : (1 : ℝ) * N ≤ (mI : ℝ) * N := mul_le_mul_of_nonneg_right hcon hNpos.le
          linarith
        have hlb' : (-1 : ℝ) < (mI : ℝ) := by
          by_contra hcon
          push_neg at hcon
          have : (mI : ℝ) * N ≤ (-1 : ℝ) * N := mul_le_mul_of_nonneg_right hcon hNpos.le
          linarith
        have h1 : mI < 1 := by exact_mod_cast hub'
        have h2 : (-1 : ℤ) < mI := by exact_mod_cast hlb'
        omega
      apply hnj
      rw [hm0] at hjn
      have : (j : ℝ) = n := by
        push_cast at hjn
        linarith
      exact_mod_cast this.symm
    rw [geom_sum_eq hz1, hzN, sub_self, zero_div]

theorem toC_real_smul (c a b : ℝ) : toC ⟨c * a, c * b⟩ = (c : ℂ) * toC ⟨a, b⟩ := by
  apply Complex.ext <;> simp [Complex.mul_re, Complex.mul_im]

/-- Claim C1: for every size `N ≥ 1` and every interleaved complex input of
length `N`, `FFTComplex::forward` writes the unnormalized DFT into `freqData`:
bin `k` is the sum over `n` of `time[n] * exp(-2*pi*i*k*n/N)` (idealized real
arithmetic in the floating-point path). -/
theorem C1_forward_computes_dft (N : ℕ) (hN : 1 ≤ N) (time : ℕ → ℝ) :
    ∀ k, k < N → toC (FFTComplexForward N time k)
      = ∑ n ∈ Finset.range N,
          toC (⟨time (2 * n), time (2 * n + 1)⟩ : Cx ℝ)
            * Complex.exp ((((-(2 * Real.pi * (k * n)) / N) : ℝ) : ℂ) * Complex.I) := by
  intro k hk
  rw [FFTComplexForward,
    performRec_dft false (computeFactors N) N 1 1 _ (factorsOK_computeFactors hN)
      (Nat.one_mul N) Nat.one_pos k hk]
  refine Finset.sum_congr rfl (fun n _ => ?_)
  rw [show n * (1 * 1) = n from by ring, zeta_false_pow]
  congr 3
  push_cast
  ring

theorem C1_witness :
    (1 ≤ 4) ∧ ((0 : ℕ) < 4) ∧
      (toC (FFTComplexForward 4 (fun t => if t % 2 = 0 then (1 : ℝ) else 0) 0)
        = ∑ n ∈ Finset.range 4,
            toC (⟨(fun t => if t % 2 = 0 then (1 : ℝ) else 0) (2 * n),
                  (fun t => if t % 2 = 0 then (1 : ℝ) else 0) (2 * n + 1)⟩ : Cx ℝ)
              * Complex.exp ((((-(2 * Real.pi * ((0 : ℕ) * n)) / ((4 : ℕ) : ℝ)) : ℝ) : ℂ)
                  * Complex.I)) :=
  ⟨by decide, by decide, C1_forward_computes_dft 4 (by decide) _ 0 (by decide)⟩

/-- Claim C2: over idealized real arithmetic in the floating-point path,
`inverse (forward x) = N * x` element-wise — no normalization in either
direction. -/
theorem C2_roundtrip (N : ℕ) (hN : 1 ≤ N) (time : ℕ → ℝ) :
    ∀ j, j < 2 * N → FFTComplexInverse N (FFTComplexForward N time) j = N * time j := by
  have hN0 : 0 < N := hN
  have key : ∀ n, n < N → FFTComplexInversePerform N (FFTComplexForward N time) n
      = ⟨N * time (2 * n), N * time (2 * n + 1)⟩ := by
    intro n hn
    apply toC_inj
    rw [FFTComplexInversePerform,
      performRec_dft true (computeFactors N) N 1 1 _ (factorsOK_computeFactors hN)
        (Nat.one_mul N) Nat.one_pos n hn]
    have hfwd : ∀ k, k < N → toC (FFTComplexForward N time k)
        = ∑ x ∈ Finset.range N,
            toC (⟨time (2 * x), time (2 * x + 1)⟩ : Cx ℝ) * zeta N false ^ (x * k) := by
      intro k hk
      rw [FFTComplexForward,
        performRec_dft false (computeFactors N) N 1 1 _ (factorsOK_computeFactors hN)
          (Nat.one_mul N) Nat.one_pos k hk]
      refine Finset.sum_congr rfl (fun x _ => ?_)
      rw [show x * (1 * 1) = x from by ring, show 1 * x * k = x * k from by ring]
    calc ∑ k ∈ Finset.range N,
          toC (FFTComplexForward N time (k * (1 * 1))) * zeta N true ^ (1 * k * n)
        = ∑ k ∈ Finset.range N,
            (∑ x ∈ Finset.range N,
              toC (⟨time (2 * x), time (2 * x + 1)⟩ : Cx ℝ) * zeta N false ^ (x * k))
              * zeta N true ^ (k * n) := by
          refine Finset.sum_congr rfl (fun k hk => ?_)
          rw [show k * (1 * 1) = k from by ring, show (1 : ℕ) * k * n = k * n from by ring,
            hfwd k (Finset.mem_range.mp hk)]
      _ = ∑ x ∈ Finset.range N,
            toC (⟨time (2 * x), time (2 * x + 1)⟩ : Cx ℝ)
              * ∑ k ∈ Finset.range N, (zeta N true ^ n * zeta N false ^ x) ^ k := by
          simp only [Finset.sum_mul]
          rw [Finset.sum_comm]
          refine Finset.sum_congr rfl (fun x _ => ?_)
          rw [Finset.mul_sum]
          refine Finset.sum_congr rfl (fun k _ => ?_)
          rw [mul_pow, ← pow_mul, ← pow_mul, mul_comm n k, mul_comm x k, mul_assoc]
          ring
      _ = ∑ x ∈ Finset.range N,
            toC (⟨time (2 * x), time (2 * x + 1)⟩ : Cx ℝ)
              * (if x = n then (N : ℂ) else 0) := by
          refine Finset.sum_congr rfl (fun x hx => ?_)
          rw [zeta_orth hN0 x n (Finset.mem_range.mp hx) hn]
      _ = toC (⟨N * time (2 * n), N * time (2 * n + 1)⟩ : Cx ℝ) := by
          simp only [mul_ite, mul_zero]
          rw [Finset.sum_ite_eq' (Finset.range N) n
            (fun x => toC (⟨time (2 * x), time (2 * x + 1)⟩ : Cx ℝ) * N),
            if_pos (Finset.mem_range.mpr hn)]
          rw [show ((N : ℝ) * time (2 * n)) = (N : ℝ) * time (2 * n) from rfl, toC_real_smul]
          push_cast
          ring
  intro j hj
  by_cases hpar : j % 2 = 0
  · simp only [FFTComplexInverse]
    rw [if_pos hpar, key (j / 2) (by omega), show 2 * (j / 2) = j from by omega]
  · simp only [FFTComplexInverse]
    rw [if_neg hpar, key (j / 2) (by omega), show 2 * (j / 2) + 1 = j from by omega]

theorem C2_witness :
    (1 ≤ 2) ∧ ((1 : ℕ) < 2 * 2) ∧
      FFTComplexInverse 2 (FFTComplexForward 2 (fun t => (t : ℝ))) 1
        = ((2 : ℕ) : ℝ) * ((1 : ℕ) : ℝ) :=
  ⟨by decide, by decide, C2_roundtrip 2 (by decide) (fun t => (t : ℝ)) 1 (by decide)⟩

/-- Claim C10: in `butterflyGeneric`, under the level invariant
`stride * radix * length = N`, the running twiddle index of output position
`k = u + q1*length` is in `[0, N)` before every table access, the single
conditional subtraction implements reduction `mod N`, and the table value read
is `W[(stride*k*q) mod N]`. -/
theorem C10_twiddle_index_bounds (N stride radix length : ℕ)
    (scratch tw : ℕ → Cx ℝ) (u q1 : ℕ)
    (hσ : 0 < stride) (hpre : stride * (radix * length) = N)
    (hu : u < length) (hq1 : q1 < radix) :
    ∀ q : ℕ, 1 ≤ q → q ≤ radix - 1 →
      (genAux scratch tw N (stride * (u + q1 * length)) q).1
          = stride * (u + q1 * length) * q % N
        ∧ (genAux scratch tw N (stride * (u + q1 * length)) q).1 < N
        ∧ tw (genAux scratch tw N (stride * (u + q1 * length)) q).1
            = tw (stride * (u + q1 * length) * q % N) := by
  have hN0 : 0 < N := by
    rw [← hpre]
    exact Nat.mul_pos hσ (Nat.mul_pos (by omega) (by omega))
  have hk : u + q1 * length + 1 ≤ radix * length := by
    calc u + q1 * length + 1 ≤ length + q1 * length := by omega
    _ = (q1 + 1) * length := by ring
    _ ≤ radix * length := Nat.mul_le_mul_right length hq1
  have hinc : stride * (u + q1 * length) < N := by
    calc stride * (u + q1 * length) < stride * (u + q1 * length) + stride := by omega
    _ = stride * (u + q1 * length + 1) := by ring
    _ ≤ stride * (radix * length) := Nat.mul_le_mul_left stride hk
    _ = N := hpre
  intro q _ _
  have hfst := genAux_fst scratch tw hN0 hinc q
  exact ⟨hfst, hfst ▸ Nat.mod_lt _ hN0, congrArg tw hfst⟩

theorem C10_witness :
    (0 < 1) ∧ (1 * (3 * 2) = 6) ∧ (1 < 2) ∧ (2 < 3) ∧ (1 ≤ 2) ∧ (2 ≤ 3 - 1) ∧
      ((genAux (fun _ => (⟨0, 0⟩ : Cx ℝ)) (fun _ => (⟨0, 0⟩ : Cx ℝ)) 6
            (1 * (1 + 2 * 2)) 2).1 = 1 * (1 + 2 * 2) * 2 % 6
        ∧ (genAux (fun _ => (⟨0, 0⟩ : Cx ℝ)) (fun _ => (⟨0, 0⟩ : Cx ℝ)) 6
            (1 * (1 + 2 * 2)) 2).1 < 6
        ∧ (fun _ => (⟨0, 0⟩ : Cx ℝ))
            (genAux (fun _ => (⟨0, 0⟩ : Cx ℝ)) (fun _ => (⟨0, 0⟩ : Cx ℝ)) 6
              (1 * (1 + 2 * 2)) 2).1
            = (fun _ => (⟨0, 0⟩ : Cx ℝ)) (1 * (1 + 2 * 2) * 2 % 6)) :=
  ⟨by decide, by decide, by decide, by decide, by decide, by decide,
    C10_twiddle_index_bounds 6 1 3 2 (fun _ => ⟨0, 0⟩) (fun _ => ⟨0, 0⟩) 1 2
      (by decide) (by decide) (by decide) (by decide) 2 (by decide) (by decide)⟩

/-- Claim C9: `FFTReal::inverse` of the namespaced variant with
`inPlace = false` leaves the input `freqData` buffer unmodified — the
Hermitian pass and the DC/Nyquist combination write only into the `alloca`
scratch. -/
theorem C9_not_inplace_frame (N : ℕ) (freq : ℕ → Cx ℝ) (i : ℕ) :
    (FFTReal1Inverse N freq false).1 i = freq i := rfl

/-- Claim C6 (counterexample): for 16-bit samples, `smul` does NOT scale by
`2^-(B-1) = 2^-15` with ties away from zero: `FRACBITS` is the fixed 31, so
`smul(2^14, 2^14)` is `0` where the claimed rounding gives `8192`. -/
theorem C6_counterexample : smulZ 16 16384 16384 ≠ smulSpecTiesAway 16 16384 16384 := by
  decide

/-- Claim C6 (amended): for every integer width `B`, `smul` narrows
`sround(a*b)` to `B` bits, where `sround` adds the fixed bias `2^30` and
arithmetically shifts right by the fixed `FRACBITS = 31` — i.e. `2^31 * sround(x)`
is within `2^30` of `x`, ties rounding toward `+∞` (not away from zero). -/
theorem C6_amended (B : ℕ) (a b : ℤ) :
    smulZ B a b = toSigned B (sroundZ (a * b))
      ∧ 2 ^ 31 * sroundZ (a * b) ≤ a * b + 2 ^ 30
      ∧ a * b + 2 ^ 30 < 2 ^ 31 * (sroundZ (a * b) + 1) := by
  refine ⟨rfl, ?_, ?_⟩
  · show 2 ^ 31 * ((a * b + 2 ^ 30) / 2 ^ 31) ≤ a * b + 2 ^ 30
    omega
  · show a * b + 2 ^ 30 < 2 ^ 31 * ((a * b + 2 ^ 30) / 2 ^ 31 + 1)
    omega

/-- Claim C5 (code divergence): the constructor's check `(M/2) & 1 == 0`
passes for the odd size `M = 9` (since `⌊9/2⌋ = 4` is even), so an odd `M`
with `M ≡ 1 (mod 4)` is NOT detected; sizes divisible by 4 pass and sizes
with `M/2` odd fail, as claimed. -/
theorem C5_size_check_evaluation :
    realSizeCheckOK 9 = true ∧ 9 % 2 = 1
      ∧ realSizeCheckOK 12 = true ∧ realSizeCheckOK 6 = false := by
  decide

theorem sqrt_eq_of {m n : ℕ} (h1 : m * m ≤ n) (h2 : n < (m + 1) * (m + 1)) :
    Nat.sqrt n = m :=
  le_antisymm (Nat.lt_succ_iff.mp (Nat.sqrt_lt.mpr h2)) (Nat.le_sqrt.mpr h1)

/-- Claim C7 (code divergence): for `N = 2 * 3^32 = 3706040377703682` — a valid
64-bit size — the greedy factorization records one radix-2 factor and
thirty-two radix-3 factors: 33 records, one past the end of the 32-entry
`factors` array. -/
theorem C7_factor_overflow_evaluation :
    (computeFactors 3706040377703682).length = 33 := by
  rw [computeFactors,
    show Nat.sqrt 3706040377703682 = 60877256 from
      sqrt_eq_of (by norm_num) (by norm_num)]
  decide

/-- Round-half-up is antisymmetric in the argument exactly away from ties. -/
theorem floor_half_rotate {y : ℝ} (h : ¬∃ z : ℤ, y + 1 / 2 = (z : ℝ)) :
    ⌊1 / 2 + y⌋ = -⌊1 / 2 + -y⌋ := by
  have key : ⌈(y + 1 / 2 : ℝ)⌉ = ⌊(y + 1 / 2 : ℝ)⌋ + 1 := by
    have hle : ⌈(y + 1 / 2 : ℝ)⌉ ≤ ⌊(y + 1 / 2 : ℝ)⌋ + 1 := Int.ceil_le_floor_add_one _
    have hge : ⌊(y + 1 / 2 : ℝ)⌋ ≤ ⌈(y + 1 / 2 : ℝ)⌉ := Int.floor_le_ceil _
    have hne : ⌈(y + 1 / 2 : ℝ)⌉ ≠ ⌊(y + 1 / 2 : ℝ)⌋ := by
      intro he
      refine h ⟨⌊(y + 1 / 2 : ℝ)⌋, ?_⟩
      have h1 : (y + 1 / 2 : ℝ) ≤ (⌊(y + 1 / 2 : ℝ)⌋ : ℝ) := by
        have h2 := Int.le_ceil (y + 1 / 2 : ℝ)
        rw [he] at h2
        exact_mod_cast h2
      exact le_antisymm h1 (Int.floor_le _)
    omega
  rw [show (1 / 2 + y : ℝ) = y + 1 / 2 from by ring,
    show (1 / 2 + -y : ℝ) = -((y + 1 / 2) - 1) from by ring,
    Int.floor_neg, Int.ceil_sub_one, key]
  ring

/-- Claim C8 (counterexample): for 32-bit integer samples and `N = 12`, the
inverse twiddle table is NOT the elementwise conjugate of the forward one:
`Tmax * sin(π/6) = (2^31-1)/2` lands exactly on a rounding tie, and
`floor(0.5 + x)` breaks the symmetry (`2^30` versus `2^30 - 1`). -/
theorem C8_counterexample : twIntI 32 12 1 ≠ Cx.conj (twIntF 32 12 1) := by
  have h1 : ssinInt 32 (-2 * Real.pi / ((12 : ℕ) : ℝ) * ((1 : ℕ) : ℝ) * -1) = 1073741824 := by
    rw [ssinInt,
      show (-2 * Real.pi / ((12 : ℕ) : ℝ) * ((1 : ℕ) : ℝ) * -1 : ℝ) = Real.pi / 6 from by
        push_cast; ring,
      Real.sin_pi_div_six,
      show ((1 : ℝ) / 2 + ((2 : ℝ) ^ (32 - 1) - 1) * (1 / 2)) = ((1073741824 : ℤ) : ℝ) from by
        norm_num]
    exact Int.floor_intCast _
  have h2 : ssinInt 32 (-2 * Real.pi / ((12 : ℕ) : ℝ) * ((1 : ℕ) : ℝ)) = -1073741823 := by
    rw [ssinInt,
      show (-2 * Real.pi / ((12 : ℕ) : ℝ) * ((1 : ℕ) : ℝ) : ℝ) = -(Real.pi / 6) from by
        push_cast; ring,
      Real.sin_neg, Real.sin_pi_div_six,
      show ((1 : ℝ) / 2 + ((2 : ℝ) ^ (32 - 1) - 1) * -(1 / 2)) = ((-1073741823 : ℤ) : ℝ) from by
        norm_num]
    exact Int.floor_intCast _
  intro h
  have him := congrArg Cx.im h
  rw [twIntI, twIntF] at him
  simp only [Cx.conj_im] at him
  rw [h1, h2] at him
  norm_num at him

/-- Claim C8 (amended): in the floating-point path (idealized reals) the
forward and inverse twiddle tables are conjugate-equal element-wise for every
size and index. In the integer path the real parts always agree, and the
imaginary part of the inverse entry is the negation of the forward one
whenever `Tmax * sin(phase) + 1/2` is not an integer; on exact rounding ties
(e.g. `N = 12`, `i = 1`, 32-bit) the symmetry can break. -/
theorem C8_amended :
    (∀ N i : ℕ, twTableI N i = Cx.conj (twTableF N i))
    ∧ (∀ B N i : ℕ, (twIntI B N i).re = (twIntF B N i).re)
    ∧ (∀ B N i : ℕ,
        (¬∃ z : ℤ, ((2 : ℝ) ^ (B - 1) - 1)
            * Real.sin (-2 * Real.pi / N * i * -1) + 1 / 2 = (z : ℝ)) →
        (twIntI B N i).im = -(twIntF B N i).im) := by
  refine ⟨?_, ?_, ?_⟩
  · intro N i
    rw [twTableI, twTableF, cexpR, cexpR, Cx.conj,
      show (-2 * Real.pi / N * i * -1 : ℝ) = -(-2 * Real.pi / N * i) from by ring,
      Real.cos_neg, Real.sin_neg]
  · intro B N i
    rw [twIntI, twIntF]
    show scosInt B (-2 * Real.pi / N * i * -1) = scosInt B (-2 * Real.pi / N * i)
    rw [scosInt, scosInt,
      show (-2 * Real.pi / N * i * -1 : ℝ) = -(-2 * Real.pi / N * i) from by ring,
      Real.cos_neg]
  · intro B N i hcond
    rw [twIntI, twIntF]
    show ssinInt B (-2 * Real.pi / N * i * -1) = -ssinInt B (-2 * Real.pi / N * i)
    rw [ssinInt, ssinInt]
    nth_rewrite 2 [show (-2 * Real.pi / N * i : ℝ) = -(-2 * Real.pi / N * i * -1) from by
      ring]
    rw [Real.sin_neg,
      show (((2 : ℝ) ^ (B - 1) - 1) * -Real.sin (-2 * Real.pi / N * i * -1))
        = -(((2 : ℝ) ^ (B - 1) - 1) * Real.sin (-2 * Real.pi / N * i * -1)) from by ring]
    exact floor_half_rotate hcond

theorem C8_witness :
    (¬∃ z : ℤ, ((2 : ℝ) ^ (32 - 1) - 1)
        * Real.sin (-2 * Real.pi / (4 : ℕ) * (1 : ℕ) * -1) + 1 / 2 = (z : ℝ))
    ∧ (twIntI 32 4 1).im = -(twIntF 32 4 1).im := by
  have hcond : ¬∃ z : ℤ, ((2 : ℝ) ^ (32 - 1) - 1)
      * Real.sin (-2 * Real.pi / (4 : ℕ) * (1 : ℕ) * -1) + 1 / 2 = (z : ℝ) := by
    rw [show (-2 * Real.pi / ((4 : ℕ) : ℝ) * ((1 : ℕ) : ℝ) * -1 : ℝ) = Real.pi / 2 from by
        push_cast; ring,
      Real.sin_pi_div_two]
    rintro ⟨z, hz⟩
    have h2z : (2 * z : ℝ) = 4294967295 := by
      norm_num at hz
      linarith
    have h2zZ : (2 * z : ℤ) = 4294967295 := by exact_mod_cast h2z
    omega
  exact ⟨hcond, C8_amended.2.2 32 4 1 hcond⟩

theorem Cx.ext {R : Type} {a b : Cx R} (h1 : a.re = b.re) (h2 : a.im = b.im) :
    a = b := by
  cases a
  cases b
  cases h1
  cases h2
  rfl

theorem computeFactors_four : computeFactors 4 = [⟨4, 1⟩] := by
  rw [computeFactors, show Nat.sqrt 4 = 2 from sqrt_eq_of (by norm_num) (by norm_num)]
  rfl

theorem computeFactors_two : computeFactors 2 = [⟨2, 1⟩] := by
  rw [computeFactors, show Nat.sqrt 2 = 1 from sqrt_eq_of (by norm_num) (by norm_num)]
  rfl

theorem twTableF_zero (N : ℕ) : twTableF N 0 = ⟨1, 0⟩ := by
  rw [twTableF, cexpR]
  norm_num

/-- The length-4 complex FFT of the interleaved samples `(1,-1,1,-1,1,-1,1,-1)`:
the constant complex signal `(1,-1)`, so bin 0 is `(4,-4)` and bins 1-3 vanish. -/
theorem forward4_alternating :
    ∀ j, j < 4 → FFTComplexForward 4 (fun t => if t % 2 = 0 then (1 : ℝ) else -1) j
      = if j = 0 then (⟨4, -4⟩ : Cx ℝ) else ⟨0, 0⟩ := by
  intro j hj
  interval_cases j <;>
  · refine Cx.ext ?_ ?_ <;>
    · simp only [FFTComplexForward, computeFactors_four]
      norm_num [performRec, butterfly4, twTableF_zero, Cx.cmul]

/-- Claim C3 (code divergence): for `M = 8`, input `(1,-1,1,-1,1,-1,1,-1)`, the
`part_000` forward produces the claimed spectrum `((0,0),(0,0),(0,0),(0,0),(8,0))`
with Nyquist bin `(X[0].re - X[0].im, 0) = (8,0)` — but the `part_001` forward
ends with `memset (freqData + size, …)`, which starts at bin `N` instead of
`N + 1` and zeroes the Nyquist bin it just wrote: its bin 4 is `(0,0)`. -/
theorem C3_nyquist_bin_evaluation :
    FFTReal0Forward 4 (fun t => if t % 2 = 0 then (1 : ℝ) else -1) 0 = ⟨0, 0⟩
    ∧ FFTReal0Forward 4 (fun t => if t % 2 = 0 then (1 : ℝ) else -1) 1 = ⟨0, 0⟩
    ∧ FFTReal0Forward 4 (fun t => if t % 2 = 0 then (1 : ℝ) else -1) 2 = ⟨0, 0⟩
    ∧ FFTReal0Forward 4 (fun t => if t % 2 = 0 then (1 : ℝ) else -1) 3 = ⟨0, 0⟩
    ∧ FFTReal0Forward 4 (fun t => if t % 2 = 0 then (1 : ℝ) else -1) 4 = ⟨8, 0⟩
    ∧ FFTReal1Forward 4 (fun t => if t % 2 = 0 then (1 : ℝ) else -1) 4 = ⟨0, 0⟩ := by
  have hX0 := forward4_alternating 0 (by norm_num)
  have hX1 := forward4_alternating 1 (by norm_num)
  have hX2 := forward4_alternating 2 (by norm_num)
  have hX3 := forward4_alternating 3 (by norm_num)
  norm_num at hX0 hX1 hX2 hX3
  refine ⟨?_, ?_, ?_, ?_, ?_, ?_⟩ <;>
  · refine Cx.ext ?_ ?_ <;>
      norm_num [FFTReal0Forward, FFTReal1Forward, realForwardBins, halveR,
        hX0, hX1, hX2, hX3]

/-- Claim C4 (code divergence): `part_001`'s `inverse` with `inPlace = true`
skips building `Y[0] = (in[0].re + in[N].re, in[0].re - in[N].re)`; for
`M = 4` and bins `((1,0),(0,0),(1,0))` the in-place call produces time sample
`2·time[0] = 1` where the scratch path (and the claimed pipeline) gives `2`. -/
theorem C4_inplace_divergence :
    (FFTReal1Inverse 2
        (fun k => if k = 0 then (⟨1, 0⟩ : Cx ℝ) else if k = 2 then ⟨1, 0⟩ else ⟨0, 0⟩)
        true).2 0 = 1
    ∧ (FFTReal1Inverse 2
        (fun k => if k = 0 then (⟨1, 0⟩ : Cx ℝ) else if k = 2 then ⟨1, 0⟩ else ⟨0, 0⟩)
        false).2 0 = 2 := by
  constructor <;>
  · simp only [FFTReal1Inverse, FFTComplexInverse, FFTComplexInversePerform,
      computeFactors_two]
    norm_num [performRec, butterfly2, hermitianInvPass, Cx.cmul, Cx.conj]

end Fftpp
